import Mathlib

/-!
Verification of the planner-digitization automation system against its
natural-language specification.

The development shallowly embeds the Python source files
(`digitizer_integration.py`, `date_validator.py`, `folder_watcher.py`,
`automation_orchestrator.py`) into Lean:

* External subprocess calls (the Extraction Service `planner_digitizer.py`
  and the Upload Service `notion_uploader.py`) are modelled as oracles: a
  function from attempt index to the outcome that the pair of calls made by
  `DigitizerIntegration._run_digitizer` would produce on that attempt.
* Calendar dates (Python `datetime` values at midnight, as produced by
  `datetime(y, m, d)` and `strptime` of date-only formats) are modelled as
  `Nat` day numbers; `timedelta(days = k)` is addition and
  `(b - a).days` is `b - a`.  `mkDate y m d` converts a civil date to its
  day number with the standard civil-from-days algorithm, so concrete
  calendar dates from the specification can be named exactly.
* Exceptions are modelled with `Except String`; a `try/except` boundary is
  a `match` on the result.
* Wall-clock durations (`processing_time`, `time.sleep`) are not modelled:
  no claim mentions them.  Fields of the Python dataclasses that no claim
  touches (`output_data`, `processing_time`) are elided.
-/

/-! ## Retry pipeline: `digitizer_integration.py`

`DigitizerIntegration.process_single_image` loops `attempt` over
`range(retry_attempts)`, each iteration calling `_run_digitizer`, which
first runs the Extraction Service (step 1) and then, when
`upload_to_notion and self.has_notion_uploader`, the Upload Service
(step 2).  One call of `_run_digitizer` therefore invokes the Extraction
Service exactly once, before anything else.

`AttemptSpec` records what the two external services would do on one such
call: step 1 fails, or step 1 succeeds and step 2 would fail, or both
would succeed. -/

inductive AttemptSpec where
  | extractFail (err : String)
  | uploadFail (err : String)
  | ok
deriving Repr, DecidableEq

/-- Step 1 (`_run_digitizer_step1`, the Extraction Service) succeeds
exactly when the attempt is not an extraction failure. -/
def step1Succeeds : AttemptSpec → Bool
  | .extractFail _ => false
  | .uploadFail _ => true
  | .ok => true

/-- The per-file result dataclass `DigitizerResult`
(`digitizer_integration.py`, lines 29-37); `output_data` and
`processing_time` are elided (no claim mentions them). -/
structure DigitizerResult where
  success : Bool
  image_path : String
  error_message : Option String
  retry_count : Nat
deriving Repr, DecidableEq

/-- One call of `DigitizerIntegration._run_digitizer` (lines 136-176):
step 1 runs first; on step-1 failure its failure result is returned; on
step-1 success, step 2 runs only when `upload_to_notion` is requested and
the uploader exists, and a step-2 failure yields the distinct
"Step 1 succeeded but Step 2 failed" error; otherwise the successful
step-1 result is returned. -/
def runDigitizer (uploadToNotion hasUploader : Bool) (path : String) :
    AttemptSpec → DigitizerResult
  | .extractFail err => ⟨false, path, some ("Digitizer failed: " ++ err), 0⟩
  | .uploadFail err =>
      if uploadToNotion && hasUploader then
        ⟨false, path, some ("Step 1 succeeded but Step 2 failed: " ++ err), 0⟩
      else
        ⟨true, path, none, 0⟩
  | .ok => ⟨true, path, none, 0⟩

/-- The terminal result built at `digitizer_integration.py` lines 95-101
when every attempt has failed. -/
def failedAllResult (retryAttempts : Nat) (path : String) : DigitizerResult :=
  ⟨false, path,
   some ("Failed after " ++ toString retryAttempts ++ " attempts"),
   retryAttempts⟩

/-- The retry loop of `process_single_image` (lines 68-101).  `remaining`
is the number of loop iterations left, `attempt` the current 0-based
attempt index, `extracted` the number of Extraction Service invocations so
far (each loop iteration calls `_run_digitizer`, which invokes the
Extraction Service exactly once).  On a successful `_run_digitizer` call
the result is returned with `retry_count := attempt` (line 77); when the
loop ends the `failedAllResult` is returned. -/
def attemptLoop (retryAttempts : Nat) (upload hasUp : Bool)
    (env : Nat → AttemptSpec) (path : String) :
    Nat → Nat → Nat → DigitizerResult × Nat
  | 0, _, extracted => (failedAllResult retryAttempts path, extracted)
  | remaining + 1, attempt, extracted =>
      let r := runDigitizer upload hasUp path (env attempt)
      if r.success then
        ({ r with retry_count := attempt }, extracted + 1)
      else
        attemptLoop retryAttempts upload hasUp env path remaining
          (attempt + 1) (extracted + 1)

/-- Model of `DigitizerIntegration.process_single_image` (lines 62-101) together
with the count of Extraction Service invocations it performs.  `env k` is
the behaviour of the external services on the `k`-th (0-based) call of
`_run_digitizer`. -/
def processSingleImage (retryAttempts : Nat) (upload hasUp : Bool)
    (env : Nat → AttemptSpec) (path : String) : DigitizerResult × Nat :=
  attemptLoop retryAttempts upload hasUp env path retryAttempts 0 0

section AttemptLoopLemmas

variable (retryAttempts : Nat) (upload hasUp : Bool)
variable (env : Nat → AttemptSpec) (path : String)

/-- If every remaining attempt fails, the loop exhausts its budget, makes
one Extraction Service invocation per remaining iteration, and returns the
terminal failure result. -/
theorem attemptLoop_all_fail :
    ∀ (remaining attempt extracted : Nat),
      (∀ j, j < remaining →
        (runDigitizer upload hasUp path (env (attempt + j))).success = false) →
      attemptLoop retryAttempts upload hasUp env path remaining attempt extracted
        = (failedAllResult retryAttempts path, extracted + remaining) := by
  intro remaining
  induction remaining with
  | zero => intro attempt extracted _; rfl
  | succ r ih =>
      intro attempt extracted hfail
      have h0 : (runDigitizer upload hasUp path (env attempt)).success = false := by
        have := hfail 0 (Nat.succ_pos r)
        simpa using this
      have hrec := ih (attempt + 1) (extracted + 1) (by
        intro j hj
        have := hfail (j + 1) (Nat.succ_lt_succ hj)
        have harg : attempt + 1 + j = attempt + (j + 1) := by omega
        rw [harg]
        exact this)
      show (if (runDigitizer upload hasUp path (env attempt)).success then _ else _) = _
      rw [h0]
      simp only [Bool.false_eq_true, if_false]
      rw [hrec]
      have : extracted + 1 + r = extracted + (r + 1) := by omega
      rw [this]

/-- If the first `s` remaining attempts fail and attempt `attempt + s`
succeeds, the loop stops right there: the result is the successful
`_run_digitizer` result with `retry_count = attempt + s`, after exactly
`s + 1` further Extraction Service invocations. -/
theorem attemptLoop_first_success :
    ∀ (s remaining attempt extracted : Nat), s < remaining →
      (∀ j, j < s →
        (runDigitizer upload hasUp path (env (attempt + j))).success = false) →
      (runDigitizer upload hasUp path (env (attempt + s))).success = true →
      attemptLoop retryAttempts upload hasUp env path remaining attempt extracted
        = ({ runDigitizer upload hasUp path (env (attempt + s)) with
              retry_count := attempt + s }, extracted + s + 1) := by
  intro s
  induction s with
  | zero =>
      intro remaining attempt extracted hrem _ hsucc
      obtain ⟨r, rfl⟩ : ∃ r, remaining = r + 1 := by
        cases remaining with
        | zero => omega
        | succ r => exact ⟨r, rfl⟩
      have hsucc0 : (runDigitizer upload hasUp path (env attempt)).success = true := by
        simpa using hsucc
      show (if (runDigitizer upload hasUp path (env attempt)).success then _ else _) = _
      rw [hsucc0]
      simp [hsucc0]
  | succ s ih =>
      intro remaining attempt extracted hrem hfail hsucc
      obtain ⟨r, rfl⟩ : ∃ r, remaining = r + 1 := by
        cases remaining with
        | zero => omega
        | succ r => exact ⟨r, rfl⟩
      have h0 : (runDigitizer upload hasUp path (env attempt)).success = false := by
        have := hfail 0 (Nat.succ_pos s)
        simpa using this
      have harg : attempt + 1 + s = attempt + (s + 1) := by omega
      have hrec := ih r (attempt + 1) (extracted + 1)
        (by omega)
        (by
          intro j hj
          have := hfail (j + 1) (Nat.succ_lt_succ hj)
          have h2 : attempt + 1 + j = attempt + (j + 1) := by omega
          rw [h2]; exact this)
        (by rw [harg]; exact hsucc)
      show (if (runDigitizer upload hasUp path (env attempt)).success then _ else _) = _
      rw [h0]
      simp only [Bool.false_eq_true, if_false]
      rw [hrec, harg]
      have h3 : extracted + 1 + s + 1 = extracted + (s + 1) + 1 := by omega
      rw [h3]

end AttemptLoopLemmas

/-! ## Batch processing and the batch aggregate

`DigitizerIntegration.process_batch` (lines 103-134) slices the path list
into chunks of `batch_size` (the Python slices `image_paths[i:i+batch_size]`
for `i in range(0, total, batch_size)`) and calls `process_single_image`
on every path of every chunk in order, appending each result.
`AutomationOrchestrator._create_processing_result` (lines 347-372) then
derives the batch aggregate. -/

/-- The chunk list produced by the slicing loop of `process_batch`.  The
fuel argument (instantiated with the list length) only serves termination;
with a positive chunk size it is never exhausted. -/
def pyChunksAux (size : Nat) : Nat → List String → List (List String)
  | _, [] => []
  | 0, _ => []
  | fuel + 1, l => l.take size :: pyChunksAux size fuel (l.drop size)

/-- Slices `l` as `l[0:size], l[size:2*size], ...`. -/
def pyChunks (size : Nat) (l : List String) : List (List String) :=
  pyChunksAux size l.length l

/-- Concatenation of a list of lists (the successive `results.append`
calls across chunks). -/
def flattenLists {α : Type} : List (List α) → List α
  | [] => []
  | l :: ls => l ++ flattenLists ls

/-- Model of `DigitizerIntegration.process_batch` (lines 103-134): every path of
every chunk is processed with `process_single_image`, results in order.
`env p` is the external-service behaviour for path `p`. -/
def processBatch (retryAttempts batchSize : Nat) (upload hasUp : Bool)
    (env : String → Nat → AttemptSpec) (paths : List String) :
    List DigitizerResult :=
  flattenLists ((pyChunks batchSize paths).map
    (fun chunk => chunk.map
      (fun p => (processSingleImage retryAttempts upload hasUp (env p) p).1)))

/-- The decision dataclass `ProcessingDecision` (`date_validator.py`,
lines 20-26), dates as day numbers. -/
structure ProcessingDecision where
  action : String
  date : Option Nat
  reason : String
  existing_id : Option String
deriving Repr, DecidableEq

/-- The batch aggregate dataclass `ProcessingResult`
(`notification_manager.py`, lines 19-28); `processing_time` elided. -/
structure ProcessingResult where
  success_count : Nat
  error_count : Nat
  new_entries : Nat
  updated_entries : Nat
  skipped_count : Nat
  errors : List String
deriving Repr, DecidableEq

/-- The list comprehension `[r.error_message for r in results if
r.error_message]` (`automation_orchestrator.py`, line 359): Python
truthiness drops both `None` and the empty string. -/
def collectErrors (results : List DigitizerResult) : List String :=
  results.filterMap (fun r =>
    match r.error_message with
    | some s => if s = "" then none else some s
    | none => none)

/-- Model of `AutomationOrchestrator._create_processing_result` (lines 347-372). -/
def createProcessingResult (results : List DigitizerResult)
    (decisions : List ProcessingDecision) : ProcessingResult :=
  { success_count := (results.filter (fun r => r.success)).length
    error_count := results.length - (results.filter (fun r => r.success)).length
    new_entries := (decisions.filter (fun d => d.action == "new")).length
    updated_entries := (decisions.filter (fun d => d.action == "update")).length
    skipped_count := (decisions.filter (fun d => d.action == "skip")).length
    errors := collectErrors results }

theorem pyChunksAux_flatten (size : Nat) (hs : 0 < size) :
    ∀ (fuel : Nat) (l : List String), l.length ≤ fuel →
      flattenLists (pyChunksAux size fuel l) = l := by
  intro fuel
  induction fuel with
  | zero =>
      intro l hl
      have : l = [] := List.length_eq_zero.mp (Nat.le_zero.mp hl)
      subst this
      rfl
  | succ f ih =>
      intro l hl
      cases l with
      | nil => rfl
      | cons a t =>
          show flattenLists ((a :: t).take size :: pyChunksAux size f ((a :: t).drop size)) = a :: t
          have hdrop : ((a :: t).drop size).length ≤ f := by
            rw [List.length_drop]
            have := List.length_cons a t ▸ hl
            omega
          show (a :: t).take size ++ flattenLists (pyChunksAux size f ((a :: t).drop size)) = a :: t
          rw [ih _ hdrop, List.take_append_drop]

theorem flattenLists_map_map {α β : Type} (f : α → β) :
    ∀ (ls : List (List α)),
      flattenLists (ls.map (fun l => l.map f)) = (flattenLists ls).map f := by
  intro ls
  induction ls with
  | nil => rfl
  | cons l t ih =>
      show l.map f ++ flattenLists (t.map (fun l => l.map f)) = (l ++ flattenLists t).map f
      rw [ih, List.map_append]

/-- With a positive chunk size (the Python code would raise on
`batch_size = 0`), `process_batch` is exactly the in-order map of
`process_single_image` over the input paths. -/
theorem processBatch_eq_map (retryAttempts batchSize : Nat)
    (upload hasUp : Bool) (env : String → Nat → AttemptSpec)
    (paths : List String) (hbs : 0 < batchSize) :
    processBatch retryAttempts batchSize upload hasUp env paths
      = paths.map (fun p => (processSingleImage retryAttempts upload hasUp (env p) p).1) := by
  unfold processBatch
  rw [flattenLists_map_map]
  unfold pyChunks
  rw [pyChunksAux_flatten batchSize hbs paths.length paths (Nat.le_refl _)]

/-! ## Claims C1, C2, C3 -/

theorem filter_success_length_lt (r : DigitizerResult) :
    ∀ l : List DigitizerResult, r ∈ l → r.success = false →
      (l.filter (fun x => x.success)).length < l.length := by
  intro l
  induction l with
  | nil => intro h; cases h
  | cons a t ih =>
      intro hmem hr
      rw [List.filter_cons]
      rcases List.mem_cons.mp hmem with rfl | hmem'
      · rw [hr]
        simp only [Bool.false_eq_true, if_false, List.length_cons]
        exact Nat.lt_succ_of_le (List.length_filter_le _ t)
      · by_cases ha : a.success = true
        · rw [ha]
          simp only [if_true, List.length_cons]
          exact Nat.succ_lt_succ (ih hmem' hr)
        · rw [Bool.not_eq_true] at ha
          rw [ha]
          simp only [Bool.false_eq_true, if_false, List.length_cons]
          exact Nat.lt_succ_of_lt (ih hmem' hr)

/-- Environment in which every attempt is a phase-2 (upload) failure after
a phase-1 (extraction) success. -/
def uploadFailEnv : Nat → AttemptSpec :=
  fun _ => AttemptSpec.uploadFail "Notion upload failed: 401"

/-- C1 counterexample: with `retry_attempts = 2`, upload requested and the
uploader present, a file whose phase-1 extraction succeeds on the first
attempt (`step1Succeeds`) while its phase-2 upload fails is retried by
`process_single_image`, and the retry invokes the Extraction Service a
second time: the invocation count is 2, not 1.  The claim that retrying
such a file "does not re-run phase 1" is therefore false of the code. -/
theorem claim1_counterexample :
    step1Succeeds (uploadFailEnv 0) = true ∧
    (runDigitizer true true "img.jpg" (uploadFailEnv 0)).success = false ∧
    (processSingleImage 2 true true uploadFailEnv "img.jpg").2 = 2 ∧
    (processSingleImage 2 true true uploadFailEnv "img.jpg").2 ≠ 1 := by
  exact ⟨rfl, rfl, rfl, by decide⟩

/-- C1 (amended): after a phase-2 failure following a phase-1 success the
orchestrator retries the full pipeline, re-invoking the Extraction Service
on every retry (an attempt budget of `N` yields exactly `N` extraction
invocations), and the whole attempt counts against the single shared
attempt budget; phase 2 is never retried independently of phase 1. -/
theorem claim1_amended (N : Nat) (env : Nat → AttemptSpec) (path : String)
    (h : ∀ k, ∃ e, env k = AttemptSpec.uploadFail e) :
    (processSingleImage N true true env path).2 = N ∧
    (processSingleImage N true true env path).1.success = false ∧
    (processSingleImage N true true env path).1.retry_count = N := by
  have hfail : ∀ j, j < N →
      (runDigitizer true true path (env (0 + j))).success = false := by
    intro j _
    obtain ⟨e, he⟩ := h j
    rw [Nat.zero_add, he]
    rfl
  have hl := attemptLoop_all_fail N true true env path N 0 0 hfail
  unfold processSingleImage
  rw [hl]
  refine ⟨?_, rfl, rfl⟩
  show 0 + N = N
  omega

theorem claim1_amended_witness :
    (processSingleImage 3 true true uploadFailEnv "img.jpg").2 = 3 ∧
    (processSingleImage 3 true true uploadFailEnv "img.jpg").1.success = false ∧
    (processSingleImage 3 true true uploadFailEnv "img.jpg").1.retry_count = 3 :=
  claim1_amended 3 uploadFailEnv "img.jpg"
    (fun _ => ⟨"Notion upload failed: 401", rfl⟩)

/-- C2: with attempt bound `N ≥ 1`, extraction failing on each of the
first `N - 1` attempts and the pipeline succeeding on attempt `N` (upload
not requested, not configured, or succeeding — any attempt behaviour whose
`_run_digitizer` result is successful), `process_single_image` returns
`success = true` with `retry_count = N - 1`, and the Extraction Service is
invoked exactly `N` times: no further attempt follows the first success. -/
theorem claim2_retry_then_success (N : Nat) (upload hasUp : Bool)
    (env : Nat → AttemptSpec) (path : String)
    (hN : 1 ≤ N)
    (hfail : ∀ k, k < N - 1 → ∃ e, env k = AttemptSpec.extractFail e)
    (hsucc : (runDigitizer upload hasUp path (env (N - 1))).success = true) :
    (processSingleImage N upload hasUp env path).1.success = true ∧
    (processSingleImage N upload hasUp env path).1.retry_count = N - 1 ∧
    (processSingleImage N upload hasUp env path).2 = N := by
  have hfail' : ∀ j, j < N - 1 →
      (runDigitizer upload hasUp path (env (0 + j))).success = false := by
    intro j hj
    obtain ⟨e, he⟩ := hfail j hj
    rw [Nat.zero_add, he]
    rfl
  have h := attemptLoop_first_success N upload hasUp env path (N - 1) N 0 0
    (by omega) hfail' (by rw [Nat.zero_add]; exact hsucc)
  unfold processSingleImage
  rw [h]
  refine ⟨?_, ?_, ?_⟩
  · show (runDigitizer upload hasUp path (env (0 + (N - 1)))).success = true
    rw [Nat.zero_add]
    exact hsucc
  · show 0 + (N - 1) = N - 1
    omega
  · show 0 + (N - 1) + 1 = N
    omega

/-- Environment that fails extraction twice then succeeds fully. -/
def failTwiceEnv : Nat → AttemptSpec :=
  fun k => if k < 2 then AttemptSpec.extractFail "ocr failed" else AttemptSpec.ok

theorem claim2_witness :
    (processSingleImage 3 true true failTwiceEnv "img.jpg").1.success = true ∧
    (processSingleImage 3 true true failTwiceEnv "img.jpg").1.retry_count = 2 ∧
    (processSingleImage 3 true true failTwiceEnv "img.jpg").2 = 3 :=
  claim2_retry_then_success 3 true true failTwiceEnv "img.jpg"
    (by omega)
    (fun k hk => ⟨"ocr failed", by
      have hk2 : k < 2 := by omega
      simp [failTwiceEnv, hk2]⟩)
    (by decide)

/-- C3: if every attempt for file `p` fails, `process_single_image`
returns `success = false`, `retry_count = N` and the non-empty error
message "Failed after N attempts"; `process_batch` still produces one
result per input file (no file's exhaustion prevents the others from
being attempted), the exhausted file's result is among them, its message
is in the aggregate's `errors` list, and the aggregate `error_count` is
positive. -/
theorem claim3_exhaustion (N batchSize : Nat) (upload hasUp : Bool)
    (env : String → Nat → AttemptSpec) (paths : List String)
    (decisions : List ProcessingDecision) (p : String)
    (hbs : 0 < batchSize) (hp : p ∈ paths)
    (hfail : ∀ k, (runDigitizer upload hasUp p (env p k)).success = false) :
    (processSingleImage N upload hasUp (env p) p).1 = failedAllResult N p ∧
    (failedAllResult N p).success = false ∧
    (failedAllResult N p).retry_count = N ∧
    (failedAllResult N p).error_message
      = some ("Failed after " ++ toString N ++ " attempts") ∧
    ("Failed after " ++ toString N ++ " attempts") ≠ "" ∧
    processBatch N batchSize upload hasUp env paths
      = paths.map (fun q => (processSingleImage N upload hasUp (env q) q).1) ∧
    (processBatch N batchSize upload hasUp env paths).length = paths.length ∧
    failedAllResult N p ∈ processBatch N batchSize upload hasUp env paths ∧
    ("Failed after " ++ toString N ++ " attempts")
      ∈ (createProcessingResult
          (processBatch N batchSize upload hasUp env paths) decisions).errors ∧
    0 < (createProcessingResult
          (processBatch N batchSize upload hasUp env paths) decisions).error_count := by
  have hfail' : ∀ j, j < N →
      (runDigitizer upload hasUp p (env p (0 + j))).success = false := by
    intro j _
    rw [Nat.zero_add]
    exact hfail j
  have hsingle := attemptLoop_all_fail N upload hasUp (env p) p N 0 0 hfail'
  have hsingle1 : (processSingleImage N upload hasUp (env p) p).1
      = failedAllResult N p := by
    unfold processSingleImage
    rw [hsingle]
  have hne : ("Failed after " ++ toString N ++ " attempts") ≠ "" := by
    intro h
    have hlen := congrArg String.length h
    rw [String.length_append, String.length_append] at hlen
    have h1 : ("Failed after " : String).length = 13 := rfl
    have h2 : (" attempts" : String).length = 9 := rfl
    have h3 : ("" : String).length = 0 := rfl
    omega
  have hbatch := processBatch_eq_map N batchSize upload hasUp env paths hbs
  have hmem : failedAllResult N p
      ∈ processBatch N batchSize upload hasUp env paths := by
    rw [hbatch]
    rw [← hsingle1]
    exact List.mem_map_of_mem _ hp
  have herr : ("Failed after " ++ toString N ++ " attempts")
      ∈ collectErrors (processBatch N batchSize upload hasUp env paths) := by
    refine List.mem_filterMap.mpr ⟨failedAllResult N p, hmem, ?_⟩
    show (if ("Failed after " ++ toString N ++ " attempts") = ""
          then none else some ("Failed after " ++ toString N ++ " attempts"))
        = some ("Failed after " ++ toString N ++ " attempts")
    rw [if_neg hne]
  have hlt := filter_success_length_lt (failedAllResult N p)
    (processBatch N batchSize upload hasUp env paths) hmem rfl
  refine ⟨hsingle1, rfl, rfl, rfl, hne, hbatch, ?_, hmem, herr, ?_⟩
  · rw [hbatch, List.length_map]
  · show 0 < (processBatch N batchSize upload hasUp env paths).length
        - ((processBatch N batchSize upload hasUp env paths).filter
            (fun r => r.success)).length
    omega

/-- Environment in which every attempt for every file fails at phase 1. -/
def allFailEnv : String → Nat → AttemptSpec :=
  fun _ _ => AttemptSpec.extractFail "ocr failed"

theorem claim3_witness :
    (processSingleImage 2 true true (allFailEnv "a.jpg") "a.jpg").1
      = failedAllResult 2 "a.jpg" ∧
    (processBatch 2 1 true true allFailEnv ["a.jpg", "b.jpg"]).length = 2 ∧
    0 < (createProcessingResult
          (processBatch 2 1 true true allFailEnv ["a.jpg", "b.jpg"]) []).error_count := by
  have h := claim3_exhaustion 2 1 true true allFailEnv ["a.jpg", "b.jpg"] []
    "a.jpg" (by omega) (by decide) (fun _ => rfl)
  exact ⟨h.1, h.2.2.2.2.2.2.1, h.2.2.2.2.2.2.2.2.2⟩

/-! ## Dates and gap detection: `date_validator.py`

Dates are day numbers (`Nat`).  `mkDate` is the standard days-from-civil
algorithm (days since 0000-03-01 in the proleptic Gregorian calendar), so
that `mkDate y m (d + 1) = mkDate y m d + 1` for concrete dates and the
specification's concrete calendar dates can be written exactly.

The `DateValidator.existing_dates` dictionary maps a Notion date string to
a page id.  Valid `YYYY-MM-DD` strings are in bijection with day numbers,
so an index entry is modelled as `(Option Nat) × String`: the key is
`some d` when the key string is the canonical `YYYY-MM-DD` rendering of
day `d` (the form the code both produces via `strftime` and consumes via
`strptime`), and `none` when the key string does not parse (the
`except ValueError: continue` branch at `date_validator.py` line 368). -/

/-- Day number of a civil date (days since 0000-03-01, proleptic
Gregorian); the standard days-from-civil computation. -/
def mkDate (y m d : Nat) : Nat :=
  let yAdj := if m ≤ 2 then y - 1 else y
  let era := yAdj / 400
  let yoe := yAdj % 400
  let mp := (m + 9) % 12
  let doy := (153 * mp + 2) / 5 + (d - 1)
  let doe := yoe * 365 + yoe / 4 - yoe / 100 + doy
  era * 146097 + doe

/-- Civil date (year, month, day) of a day number; inverse of `mkDate`,
the standard civil-from-days computation. -/
def civilFromDays (z : Nat) : Nat × Nat × Nat :=
  let era := z / 146097
  let doe := z % 146097
  let yoe := (doe - doe / 1460 + doe / 36524 - doe / 146096) / 365
  let y := yoe + era * 400
  let doy := doe - (365 * yoe + yoe / 4 - yoe / 100)
  let mp := (5 * doy + 2) / 153
  let d := doy - (153 * mp + 2) / 5 + 1
  let m := if mp < 10 then mp + 3 else mp - 9
  (if m ≤ 2 then y + 1 else y, m, d)

def pad2 (n : Nat) : String :=
  if n < 10 then "0" ++ toString n else toString n

def pad4 (n : Nat) : String :=
  if n < 10 then "000" ++ toString n
  else if n < 100 then "00" ++ toString n
  else if n < 1000 then "0" ++ toString n
  else toString n

/-- Rendering `date.strftime` with format `%Y-%m-%d`. -/
def dateToStr (z : Nat) : String :=
  pad4 (civilFromDays z).1 ++ "-" ++ pad2 (civilFromDays z).2.1
    ++ "-" ++ pad2 (civilFromDays z).2.2

/-- The `DateGap` dataclass (`date_validator.py`, lines 28-33). -/
structure DateGap where
  start_date : Nat
  end_date : Nat
  missing_dates : List Nat
deriving Repr, DecidableEq

/-- The gap built at `date_validator.py` lines 381-390 for an adjacent
pair `(a, b)` with `diff = b - a`: missing dates are
`a + offset` for `offset in range(1, diff)`. -/
def mkGap (a b : Nat) : DateGap :=
  ⟨a, b, (List.range (b - a - 1)).map (fun k => a + 1 + k)⟩

/-- The adjacent-pair scan of `detect_date_gaps` (lines 374-391) over the
sorted known-date list: each adjacent pair more than one day apart emits
one gap. -/
def gapsOf : List Nat → List DateGap
  | a :: b :: rest =>
      if 1 < b - a then mkGap a b :: gapsOf (b :: rest)
      else gapsOf (b :: rest)
  | _ => []

/-- Model of `sorted(set(sorted(processed_dates)) | parseable index keys)` — the
combined known-date list of `detect_date_gaps` lines 360-371: the
deduplicated, ascending-sorted union of the input dates and the index's
parseable dates. -/
def allKnownDates (existing : List (Option Nat × String))
    (processed : List Nat) : List Nat :=
  List.insertionSort (· ≤ ·) (processed ++ existing.filterMap Prod.fst).dedup

/-- Model of `DateValidator.detect_date_gaps` (lines 350-401).  The early return at
line 356 (`if not processed_dates: return gaps`) happens before the
existing-date index is consulted. -/
def detectDateGaps (existing : List (Option Nat × String))
    (processed : List Nat) : List DateGap :=
  if processed.isEmpty then [] else gapsOf (allKnownDates existing processed)

theorem mem_allKnownDates (existing : List (Option Nat × String))
    (processed : List Nat) (x : Nat) :
    x ∈ allKnownDates existing processed
      ↔ x ∈ processed ∨ x ∈ existing.filterMap Prod.fst := by
  unfold allKnownDates
  rw [(List.perm_insertionSort (· ≤ ·) _).mem_iff, List.mem_dedup,
    List.mem_append]

theorem sorted_allKnownDates (existing : List (Option Nat × String))
    (processed : List Nat) :
    List.Sorted (· < ·) (allKnownDates existing processed) := by
  unfold allKnownDates
  refine List.Sorted.lt_of_le (List.sorted_insertionSort (· ≤ ·) _) ?_
  exact (List.perm_insertionSort (· ≤ ·) _).nodup_iff.mpr (List.nodup_dedup _)

theorem gapsOf_eq_pairScan :
    ∀ l : List Nat,
      gapsOf l = (l.zip l.tail).filterMap
        (fun ab => if 1 < ab.2 - ab.1 then some (mkGap ab.1 ab.2) else none) := by
  intro l
  match l with
  | [] => rfl
  | [a] => rfl
  | a :: b :: rest =>
      have ih := gapsOf_eq_pairScan (b :: rest)
      by_cases h : 1 < b - a
      · simp [gapsOf, ih, h]
      · simp [gapsOf, ih, h]

theorem mem_mkGap_missing (a b m : Nat) :
    m ∈ (mkGap a b).missing_dates ↔ a < m ∧ m < b := by
  show m ∈ (List.range (b - a - 1)).map (fun k => a + 1 + k) ↔ _
  rw [List.mem_map]
  constructor
  · rintro ⟨k, hk, rfl⟩
    rw [List.mem_range] at hk
    omega
  · rintro ⟨h1, h2⟩
    exact ⟨m - a - 1, by rw [List.mem_range]; omega, by omega⟩

theorem sorted_mkGap_missing (a b : Nat) :
    List.Sorted (· < ·) (mkGap a b).missing_dates := by
  show List.Sorted (· < ·) ((List.range (b - a - 1)).map (fun k => a + 1 + k))
  refine List.Pairwise.map _ ?_ (List.pairwise_lt_range _)
  intro x y hxy
  omega

theorem gapsOf_short (l : List Nat) (h : l.length < 2) : gapsOf l = [] := by
  match l with
  | [] => rfl
  | [a] => rfl
  | a :: b :: rest =>
      exfalso
      rw [List.length_cons, List.length_cons] at h
      omega

/-! ## Claims C4 and C9 -/

/-- C4: over the deduplicated ascending-sorted union of the input dates
and the index's parseable dates, `detect_date_gaps` emits exactly one
`DateGap` per adjacent pair more than one day apart — with `start_date`
and `end_date` the pair itself and `missing_dates` exactly the dates
strictly between them, in ascending order — and emits nothing when fewer
than two known dates exist; on `[2025-05-25, 2025-05-26, 2025-05-30,
2025-05-31]` with an empty index it yields the single gap
2025-05-26 .. 2025-05-30 missing 27, 28, 29. -/
theorem claim4_gap_detection (existing : List (Option Nat × String))
    (processed : List Nat) (hne : processed ≠ []) :
    (∀ x, x ∈ allKnownDates existing processed
        ↔ x ∈ processed ∨ x ∈ existing.filterMap Prod.fst) ∧
    List.Sorted (· < ·) (allKnownDates existing processed) ∧
    detectDateGaps existing processed
      = ((allKnownDates existing processed).zip
          (allKnownDates existing processed).tail).filterMap
          (fun ab => if 1 < ab.2 - ab.1 then some (mkGap ab.1 ab.2) else none) ∧
    (∀ a b, 1 < b - a →
        (mkGap a b).start_date = a ∧ (mkGap a b).end_date = b ∧
        (∀ m, m ∈ (mkGap a b).missing_dates ↔ a < m ∧ m < b) ∧
        List.Sorted (· < ·) (mkGap a b).missing_dates) ∧
    ((allKnownDates existing processed).length < 2 →
        detectDateGaps existing processed = []) ∧
    detectDateGaps []
        [mkDate 2025 5 25, mkDate 2025 5 26, mkDate 2025 5 30, mkDate 2025 5 31]
      = [mkGap (mkDate 2025 5 26) (mkDate 2025 5 30)] ∧
    (mkGap (mkDate 2025 5 26) (mkDate 2025 5 30)).missing_dates
      = [mkDate 2025 5 27, mkDate 2025 5 28, mkDate 2025 5 29] := by
  have hie : processed.isEmpty = false := by
    cases processed with
    | nil => exact absurd rfl hne
    | cons a t => rfl
  have hdet : detectDateGaps existing processed
      = gapsOf (allKnownDates existing processed) := by
    simp [detectDateGaps, hie]
  refine ⟨mem_allKnownDates existing processed,
    sorted_allKnownDates existing processed, ?_, ?_, ?_, by decide, by decide⟩
  · rw [hdet, gapsOf_eq_pairScan]
  · intro a b _
    exact ⟨rfl, rfl, fun m => mem_mkGap_missing a b m, sorted_mkGap_missing a b⟩
  · intro hlen
    rw [hdet]
    exact gapsOf_short _ hlen

theorem claim4_witness :
    detectDateGaps []
        [mkDate 2025 5 25, mkDate 2025 5 26, mkDate 2025 5 30, mkDate 2025 5 31]
      = [mkGap (mkDate 2025 5 26) (mkDate 2025 5 30)] ∧
    (mkGap (mkDate 2025 5 26) (mkDate 2025 5 30)).missing_dates
      = [mkDate 2025 5 27, mkDate 2025 5 28, mkDate 2025 5 29] := by
  have h := claim4_gap_detection []
    [mkDate 2025 5 25, mkDate 2025 5 26, mkDate 2025 5 30, mkDate 2025 5 31]
    (by decide)
  exact ⟨h.2.2.2.2.2.1, h.2.2.2.2.2.2⟩

/-- C9: `detect_date_gaps` returns early on an empty input list, before
the existing-date index is ever unioned in, so no gaps are reported for
any state of the index — including one whose own dates are adjacent and
more than one day apart. -/
theorem claim9_empty_input_no_gaps (existing : List (Option Nat × String)) :
    detectDateGaps existing [] = [] := rfl

/-! ## Decision filter: `DateValidator.validate_batch`

`extract_date_from_image` swallows every exception of its own; the
remaining per-file body of `validate_batch` sits in a `try/except` that
turns any escaping exception into a `skip` decision (lines 340-346).  The
per-file oracle therefore either yields a date (`value (some d)`), yields
nothing (`value none`), or raises (`raises msg`, the escaping-exception
case). -/

inductive ExtractOutcome where
  | raises (msg : String)
  | value (d : Option Nat)
deriving Repr, DecidableEq

/-- Model of `self.existing_dates.get(date_str)` with
`date_str = extracted_date.strftime('%Y-%m-%d')` (lines 320-321): the
first index entry whose key is the canonical string of day `d`. -/
def lookupDate (existing : List (Option Nat × String)) (d : Nat) :
    Option String :=
  (existing.find? (fun e => e.1 == some d)).map Prod.snd

/-- One iteration of the `validate_batch` loop body (lines 307-346). -/
def validateOne (existing : List (Option Nat × String))
    (extract : String → ExtractOutcome) (p : String) : ProcessingDecision :=
  match extract p with
  | .raises e => ⟨"skip", none, "Validation error: " ++ e, none⟩
  | .value none => ⟨"skip", none, "Could not extract date from image", none⟩
  | .value (some d) =>
      match lookupDate existing d with
      | some pid =>
          ⟨"update", some d,
           "Date " ++ dateToStr d ++ " already exists in Notion", some pid⟩
      | none =>
          ⟨"new", some d,
           "New date " ++ dateToStr d ++ " to be processed", none⟩

/-- Model of `DateValidator.validate_batch` (lines 303-348): the loop appends
exactly one decision per input path, in input order (both the normal path
and the `except` branch append). -/
def validateBatch (existing : List (Option Nat × String))
    (extract : String → ExtractOutcome) (paths : List String) :
    List ProcessingDecision :=
  paths.map (validateOne existing extract)

/-- The default decision built by
`AutomationOrchestrator._handle_new_files` (lines 262-268) when no date
validator is configured. -/
def defaultDecision : ProcessingDecision :=
  ⟨"new", none, "No date validation available", none⟩

/-- The default decision list (one per file) for the no-validator case. -/
def defaultDecisions (paths : List String) : List ProcessingDecision :=
  paths.map (fun _ => defaultDecision)

/-! ## Claims C6 and C10 -/

/-- C6: a dated file whose date is absent from the index is classified
`new`; one whose date the index maps to an identifier is classified
`update` carrying that identifier; and with no date/identity source
configured every file receives the default `new` decision. -/
theorem claim6_decision_filter :
    (∀ existing extract (p : String) (d : Nat),
        extract p = ExtractOutcome.value (some d) →
        lookupDate existing d = none →
        (validateOne existing extract p).action = "new" ∧
        (validateOne existing extract p).date = some d ∧
        (validateOne existing extract p).existing_id = none) ∧
    (∀ existing extract (p : String) (d : Nat) (pid : String),
        extract p = ExtractOutcome.value (some d) →
        lookupDate existing d = some pid →
        (validateOne existing extract p).action = "update" ∧
        (validateOne existing extract p).date = some d ∧
        (validateOne existing extract p).existing_id = some pid) ∧
    (∀ paths : List String,
        (defaultDecisions paths).length = paths.length ∧
        ∀ dec ∈ defaultDecisions paths, dec.action = "new") := by
  refine ⟨?_, ?_, ?_⟩
  · intro existing extract p d hx hl
    simp [validateOne, hx, hl]
  · intro existing extract p d pid hx hl
    simp [validateOne, hx, hl]
  · intro paths
    refine ⟨List.length_map _ _, ?_⟩
    intro dec hdec
    obtain ⟨p, _, rfl⟩ := List.mem_map.mp hdec
    rfl

/-- Oracle yielding the date 2025-05-28 for every file. -/
def extractMay28 : String → ExtractOutcome :=
  fun _ => ExtractOutcome.value (some (mkDate 2025 5 28))

theorem claim6_witness :
    (validateOne [] extractMay28 "a.jpg").action = "new" ∧
    (validateOne [(some (mkDate 2025 5 28), "page-1")] extractMay28 "a.jpg").action
      = "update" ∧
    (validateOne [(some (mkDate 2025 5 28), "page-1")] extractMay28 "a.jpg").existing_id
      = some "page-1" := by
  have h1 := claim6_decision_filter.1 [] extractMay28 "a.jpg"
    (mkDate 2025 5 28) rfl rfl
  have h2 := claim6_decision_filter.2.1 [(some (mkDate 2025 5 28), "page-1")]
    extractMay28 "a.jpg" (mkDate 2025 5 28) "page-1" rfl (by decide)
  exact ⟨h1.1, h2.1, h2.2.2⟩

/-- C10: `validate_batch` returns exactly one decision per input path, in
input order (it is the in-order map of the per-file body), and a file
whose validation raises gets a `skip` decision whose reason carries the
error text — so no exception escapes `validate_batch`. -/
theorem claim10_validate_batch_total :
    (∀ existing extract (paths : List String),
        validateBatch existing extract paths
          = paths.map (validateOne existing extract) ∧
        (validateBatch existing extract paths).length = paths.length ∧
        ∀ i : Nat, (validateBatch existing extract paths)[i]?
          = (paths[i]?).map (validateOne existing extract)) ∧
    (∀ existing extract (p : String) (e : String),
        extract p = ExtractOutcome.raises e →
        (validateOne existing extract p).action = "skip" ∧
        (validateOne existing extract p).reason = "Validation error: " ++ e) := by
  refine ⟨?_, ?_⟩
  · intro existing extract paths
    refine ⟨rfl, List.length_map _ _, ?_⟩
    intro i
    show (paths.map (validateOne existing extract))[i]?
        = Option.map (validateOne existing extract) paths[i]?
    exact List.getElem?_map _ _ _
  · intro existing extract p e hx
    simp [validateOne, hx]

/-- Oracle that raises on every file. -/
def extractRaises : String → ExtractOutcome :=
  fun _ => ExtractOutcome.raises "boom"

theorem claim10_witness :
    (validateBatch [] extractRaises ["a.jpg", "b.jpg"]).length = 2 ∧
    (validateOne [] extractRaises "a.jpg").action = "skip" ∧
    (validateOne [] extractRaises "a.jpg").reason = "Validation error: boom" := by
  have h1 := (claim10_validate_batch_total.1 [] extractRaises ["a.jpg", "b.jpg"]).2.1
  have h2 := claim10_validate_batch_total.2 [] extractRaises "a.jpg" "boom" rfl
  exact ⟨h1, h2.1, h2.2⟩

/-! ## Coordinator: `AutomationOrchestrator._handle_new_files`

The whole batch body — decision filtering, partitioning, digitizer batch
run, aggregate construction, processing notification, gap detection and
gap notification — sits in one `try` (lines 252-311); the `except` at
lines 312-321 sends an error notification carrying `len(file_paths)` and
`[Path(f).name for f in file_paths]` and swallows the exception.  The
component calls are oracles returning `Except String`, so an unhandled
exception anywhere in the body surfaces as `Except.error`. -/

inductive Notification where
  | processing (res : ProcessingResult)
  | gapReport (gaps : List DateGap)
  | errorReport (etype : String) (msg : String) (fileCount : Nat)
      (files : List String)
deriving Repr, DecidableEq

/-- Splitting a character list at every occurrence of `c` (the behaviour
of Python `str.split(c)` on the underlying characters; always returns at
least one piece). -/
def splitOnChar (c : Char) : List Char → List (List Char)
  | [] => [[]]
  | x :: xs =>
      match splitOnChar c xs, decide (x = c) with
      | r, true => [] :: r
      | [], false => [[x]]
      | h :: t, false => (x :: h) :: t

/-- Model of `Path(f).name`: the final path component. -/
def baseName (p : String) : String :=
  String.mk ((splitOnChar (Char.ofNat 47) p.data).getLastD [])

/-- The collaborators `_handle_new_files` calls, each able to raise. -/
structure CoordOracles where
  validator : Option (List String → Except String (List ProcessingDecision))
  digitizer : List String → Except String (List DigitizerResult)
  procNotify : ProcessingResult → Except String Unit
  gapNotify : List DateGap → Except String Unit
  existing : List (Option Nat × String)

/-- The `try` body of `_handle_new_files` (lines 252-311): validate (or
default decisions), keep `new`/`update` files, return early when nothing
is left, run the digitizer batch, build and send the aggregate, then — if
a validator exists and some decision carries a date — detect gaps and send
a gap notification when any were found.  The returned list is the
sequence of notifications pushed. -/
def handleNewFilesBody (o : CoordOracles) (paths : List String) :
    Except String (List Notification) := do
  let decisions ← match o.validator with
    | some v => v paths
    | none => Except.ok (defaultDecisions paths)
  let toProcess := (paths.zip decisions).filterMap
    (fun pd =>
      if pd.2.action == "new" || pd.2.action == "update" then some pd.1
      else none)
  if toProcess.isEmpty then
    return []
  else
    let results ← o.digitizer toProcess
    let pr := createProcessingResult results decisions
    let _ ← o.procNotify pr
    if o.validator.isSome && decisions.any (fun d => d.date.isSome) then
      let dets := decisions.filterMap (fun d => d.date)
      let gaps := detectDateGaps o.existing dets
      if gaps.isEmpty then
        return [Notification.processing pr]
      else
        let _ ← o.gapNotify gaps
        return [Notification.processing pr, Notification.gapReport gaps]
    else
      return [Notification.processing pr]

/-- Model of `_handle_new_files` with its `except` boundary (lines 312-321): a
total function — every exception becomes the error notification. -/
def handleNewFiles (o : CoordOracles) (paths : List String) :
    List Notification :=
  match handleNewFilesBody o paths with
  | .ok ns => ns
  | .error e =>
      [Notification.errorReport "File Processing Error" e paths.length
        (paths.map baseName)]

/-! ## Claim C7 -/

/-- C7: whenever the batch body raises anywhere between decision
filtering and notification dispatch, the Coordinator pushes exactly the
error notification carrying the batch's file count and file names, and —
`handleNewFiles` being a total function into notification lists — the
exception does not propagate to the caller. -/
theorem claim7_error_boundary (o : CoordOracles) (paths : List String)
    (e : String) (h : handleNewFilesBody o paths = Except.error e) :
    handleNewFiles o paths
      = [Notification.errorReport "File Processing Error" e paths.length
          (paths.map baseName)] := by
  unfold handleNewFiles
  rw [h]

/-- Oracles whose decision-filter stage raises. -/
def raisingOracles : CoordOracles :=
  ⟨some (fun _ => Except.error "boom"), fun _ => Except.ok [],
   fun _ => Except.ok (), fun _ => Except.ok (), []⟩

theorem claim7_witness :
    handleNewFiles raisingOracles ["inbox/a.jpg", "inbox/b.png"]
      = [Notification.errorReport "File Processing Error" "boom" 2
          ["a.jpg", "b.png"]] := by
  have h := claim7_error_boundary raisingOracles ["inbox/a.jpg", "inbox/b.png"]
    "boom" rfl
  exact Eq.trans h (by decide)

/-! ## Debounce watcher: `folder_watcher.py`

`PauseTriggeredHandler` accumulates qualifying file paths in the set
`new_files` and (re)arms a one-shot timer for `pause_seconds` on every
qualifying event; when the timer expires with a non-empty set, the set is
swapped out and handed to the callback.  The embedding is a state machine
over a timestamped event trace: `elapse` fires an armed timer whose
deadline lies strictly before the current instant (real time passes
whether or not events arrive; the trailing `fireAtEnd` lets the last armed
timer expire after the trace).  The handler's lock serialises everything,
so the interleaving is exactly this sequential one. -/

/-- Model of `Path(file_path).suffix.lower()` for ordinary file names: the final
path component's extension including the dot, lowercased; empty when the
name has no dot or is a dot-file such as `.bashrc`. -/
def suffixLower (p : String) : String :=
  let name := (splitOnChar (Char.ofNat 47) p.data).getLastD []
  match splitOnChar (Char.ofNat 46) name with
  | [] => ""
  | [_] => ""
  | [[], _] => ""
  | ps => String.mk (((Char.ofNat 46) :: ps.getLastD []).map Char.toLower)

/-- Model of `PauseTriggeredHandler.supported_extensions` (line 28). -/
def supportedExtensions : List String := [".jpg", ".jpeg", ".png", ".pdf"]

/-- Model of `PauseTriggeredHandler._is_supported_file` (lines 30-32). -/
def isSupportedFile (p : String) : Bool :=
  supportedExtensions.contains (suffixLower p)

/-- A watchdog filesystem event: creation (with the file's observed size
and whether `os.path.getsize` succeeds, i.e. the file is readable) or a
move/rename into the tree. -/
inductive FsEvent where
  | created (src : String) (isDir : Bool) (size : Nat) (readable : Bool)
  | moved (dest : String) (isDir : Bool)
deriving Repr, DecidableEq

def eventPath : FsEvent → String
  | .created p _ _ _ => p
  | .moved p _ => p

/-- Whether the event passes the handler's guards: `on_created`
(lines 58-72) requires non-directory, supported extension, a readable
file and positive size; `on_moved` (lines 74-80) requires only
non-directory and supported extension. -/
def qualifies : FsEvent → Bool
  | .created p d sz r => !d && isSupportedFile p && r && decide (0 < sz)
  | .moved p d => !d && isSupportedFile p

/-- Handler state: `new_files` (insertion-ordered set), the armed timer's
absolute expiry instant, and the batches fired so far (each one the
argument of one callback invocation). -/
structure WatcherState where
  pending : List String
  deadline : Option Nat
  fired : List (List String)
deriving Repr, DecidableEq

def initWatcher : WatcherState := ⟨[], none, []⟩

/-- Model of `self.new_files.add(path)`: set insertion. -/
def addToSet (l : List String) (p : String) : List String :=
  if p ∈ l then l else l ++ [p]

/-- The guarded body shared by `on_created` and `on_moved`: a qualifying
event adds its path to `new_files` and `_reset_timer` re-arms the timer
`pause_seconds` ahead; any other event does nothing. -/
def handleEvent (D t : Nat) (s : WatcherState) (e : FsEvent) : WatcherState :=
  if qualifies e then
    { s with pending := addToSet s.pending (eventPath e),
             deadline := some (t + D) }
  else s

/-- Model of `_trigger_callback` (lines 43-56): with a non-empty `new_files` the
set is swapped out and fired; with an empty set nothing fires.  Either
way the one-shot timer is now spent. -/
def fireTimer (s : WatcherState) : WatcherState :=
  if s.pending.isEmpty then { s with deadline := none }
  else ⟨[], none, s.fired ++ [s.pending]⟩

/-- Real time reaching instant `t`: an armed timer whose deadline lies
strictly before `t` has expired and fired. -/
def elapse (t : Nat) (s : WatcherState) : WatcherState :=
  match s.deadline with
  | some d => if d < t then fireTimer s else s
  | none => s

/-- Processing one timestamped event: time passes, then the handler runs. -/
def stepWatcher (D : Nat) (s : WatcherState) (te : Nat × FsEvent) :
    WatcherState :=
  handleEvent D te.1 (elapse te.1 s) te.2

/-- After the trace, unbounded time passes: an armed timer fires. -/
def fireAtEnd (s : WatcherState) : WatcherState :=
  match s.deadline with
  | some _ => fireTimer s
  | none => s

/-- The complete run of the handler over a timestamped event trace. -/
def runWatcher (D : Nat) (evs : List (Nat × FsEvent)) : WatcherState :=
  fireAtEnd (evs.foldl (stepWatcher D) initWatcher)

def qualEvents (evs : List (Nat × FsEvent)) : List (Nat × FsEvent) :=
  evs.filter (fun te => qualifies te.2)

def qualTimes (evs : List (Nat × FsEvent)) : List Nat :=
  (qualEvents evs).map Prod.fst

def qualPaths (evs : List (Nat × FsEvent)) : List String :=
  (qualEvents evs).map (fun te => eventPath te.2)

/-- Adjacent timestamps are nondecreasing. -/
def chainLe : List Nat → Bool
  | a :: b :: r => decide (a ≤ b) && chainLe (b :: r)
  | _ => true

/-- Adjacent entries are at most `D` apart. -/
def chainGap (D : Nat) : List Nat → Bool
  | a :: b :: r => decide (b ≤ a + D) && chainGap D (b :: r)
  | _ => true

theorem addToSet_ne_nil (l : List String) (p : String) : addToSet l p ≠ [] := by
  unfold addToSet
  by_cases h : p ∈ l
  · rw [if_pos h]
    intro hl
    subst hl
    cases h
  · rw [if_neg h]
    intro hl
    cases l with
    | nil => cases hl
    | cons a t => cases hl

theorem mem_addToSet (l : List String) (p x : String) :
    x ∈ addToSet l p ↔ x ∈ l ∨ x = p := by
  unfold addToSet
  by_cases h : p ∈ l
  · rw [if_pos h]
    constructor
    · exact Or.inl
    · rintro (hx | rfl)
      · exact hx
      · exact h
  · rw [if_neg h]
    rw [List.mem_append, List.mem_singleton]

theorem nodup_addToSet (l : List String) (p : String) (h : l.Nodup) :
    (addToSet l p).Nodup := by
  unfold addToSet
  by_cases hp : p ∈ l
  · rw [if_pos hp]
    exact h
  · rw [if_neg hp]
    rw [List.nodup_append]
    exact ⟨h, List.nodup_singleton p, by
      intro x hx hx2
      rw [List.mem_singleton] at hx2
      subst hx2
      exact hp hx⟩

theorem mem_foldl_addToSet :
    ∀ (l : List String) (acc : List String) (x : String),
      x ∈ l.foldl addToSet acc ↔ x ∈ acc ∨ x ∈ l := by
  intro l
  induction l with
  | nil =>
      intro acc x
      simp
  | cons a t ih =>
      intro acc x
      rw [List.foldl_cons, ih, mem_addToSet, List.mem_cons]
      tauto

theorem nodup_foldl_addToSet :
    ∀ (l : List String) (acc : List String), acc.Nodup →
      (l.foldl addToSet acc).Nodup := by
  intro l
  induction l with
  | nil => intro acc h; exact h
  | cons a t ih =>
      intro acc h
      rw [List.foldl_cons]
      exact ih _ (nodup_addToSet acc a h)

theorem chainLe_tail (a : Nat) (l : List Nat) (h : chainLe (a :: l) = true) :
    chainLe l = true := by
  cases l with
  | nil => rfl
  | cons b r =>
      have h2 := h
      unfold chainLe at h2
      rw [Bool.and_eq_true] at h2
      exact h2.2

theorem chainLe_head (a b : Nat) (l : List Nat)
    (h : chainLe (a :: b :: l) = true) : a ≤ b := by
  unfold chainLe at h
  rw [Bool.and_eq_true] at h
  exact of_decide_eq_true h.1

theorem chainLe_all (a : Nat) :
    ∀ l : List Nat, chainLe (a :: l) = true → ∀ x ∈ l, a ≤ x := by
  intro l
  induction l generalizing a with
  | nil => intro _ x hx; cases hx
  | cons b r ih =>
      intro h x hx
      have hab : a ≤ b := chainLe_head a b r h
      rcases List.mem_cons.mp hx with rfl | hx'
      · exact hab
      · exact Nat.le_trans hab (ih b (chainLe_tail a (b :: r) h) x hx')

theorem chainLe_weaken (a b : Nat) (l : List Nat) (hab : a ≤ b)
    (h : chainLe (b :: l) = true) : chainLe (a :: l) = true := by
  cases l with
  | nil => rfl
  | cons c r =>
      have h2 := h
      unfold chainLe at h2
      rw [Bool.and_eq_true] at h2
      unfold chainLe
      rw [Bool.and_eq_true]
      refine ⟨decide_eq_true ?_, h2.2⟩
      exact Nat.le_trans hab (chainLe_head b c r h)

theorem chainGap_tail (D a : Nat) (l : List Nat)
    (h : chainGap D (a :: l) = true) : chainGap D l = true := by
  cases l with
  | nil => rfl
  | cons b r =>
      unfold chainGap at h
      rw [Bool.and_eq_true] at h
      exact h.2

theorem chainGap_head (D a b : Nat) (l : List Nat)
    (h : chainGap D (a :: b :: l) = true) : b ≤ a + D := by
  unfold chainGap at h
  rw [Bool.and_eq_true] at h
  exact of_decide_eq_true h.1

theorem handleEvent_not_qual (D t : Nat) (s : WatcherState) (e : FsEvent)
    (h : qualifies e = false) : handleEvent D t s e = s := by
  unfold handleEvent
  rw [h]
  simp

theorem handleEvent_qual (D t : Nat) (s : WatcherState) (e : FsEvent)
    (h : qualifies e = true) :
    handleEvent D t s e
      = { s with pending := addToSet s.pending (eventPath e),
                 deadline := some (t + D) } := by
  unfold handleEvent
  rw [h]
  simp

theorem fireTimer_of_ne_nil (pending : List String) (d : Option Nat)
    (fired : List (List String)) (h : pending ≠ []) :
    fireTimer ⟨pending, d, fired⟩ = ⟨[], none, fired ++ [pending]⟩ := by
  have hie : pending.isEmpty = false := by
    cases pending with
    | nil => exact absurd rfl h
    | cons a t => rfl
  unfold fireTimer
  rw [hie]
  simp

theorem fireAtEnd_armed (pending : List String) (d : Nat)
    (fired : List (List String)) (h : pending ≠ []) :
    fireAtEnd ⟨pending, some d, fired⟩ = ⟨[], none, fired ++ [pending]⟩ := by
  show fireTimer ⟨pending, some d, fired⟩ = _
  exact fireTimer_of_ne_nil pending (some d) fired h

theorem foldl_noQual (D : Nat) :
    ∀ (evs : List (Nat × FsEvent)) (pending : List String)
      (fired : List (List String)),
      (∀ te ∈ evs, qualifies te.2 = false) →
      evs.foldl (stepWatcher D) ⟨pending, none, fired⟩
        = ⟨pending, none, fired⟩ := by
  intro evs
  induction evs with
  | nil => intro pending fired _; rfl
  | cons te rest ih =>
      intro pending fired hnq
      obtain ⟨t, e⟩ := te
      rw [List.foldl_cons]
      have hstep : stepWatcher D ⟨pending, none, fired⟩ (t, e)
          = ⟨pending, none, fired⟩ := by
        show handleEvent D t (elapse t ⟨pending, none, fired⟩) e = _
        have he : elapse t ⟨pending, none, fired⟩ = ⟨pending, none, fired⟩ := rfl
        rw [he]
        exact handleEvent_not_qual D t _ e (hnq (t, e) (List.mem_cons_self _ _))
      rw [hstep]
      exact ih pending fired (fun te2 h2 => hnq te2 (List.mem_cons_of_mem _ h2))

/-- While a batch is pending (timer armed for `lastQ + D`, `lastQ` the
time of the last qualifying event), if the remaining events have
nondecreasing timestamps starting at or after `lastQ` and every pair of
consecutive qualifying times (anchored at `lastQ`) is at most `D` apart,
then exactly one more batch fires — the pending set extended with all
remaining qualifying paths. -/
theorem foldl_armed (D : Nat) :
    ∀ (evs : List (Nat × FsEvent)) (lastQ : Nat) (pending : List String)
      (fired : List (List String)),
      pending ≠ [] →
      chainLe (lastQ :: evs.map Prod.fst) = true →
      chainGap D (lastQ :: qualTimes evs) = true →
      fireAtEnd (evs.foldl (stepWatcher D) ⟨pending, some (lastQ + D), fired⟩)
        = ⟨[], none, fired ++ [(qualPaths evs).foldl addToSet pending]⟩ := by
  intro evs
  induction evs with
  | nil =>
      intro lastQ pending fired hpend _ _
      show fireAtEnd ⟨pending, some (lastQ + D), fired⟩ = _
      rw [fireAtEnd_armed pending (lastQ + D) fired hpend]
      rfl
  | cons te rest ih =>
      obtain ⟨t, e⟩ := te
      intro lastQ pending fired hpend hle hgap
      have hle1 : lastQ ≤ t := chainLe_head lastQ t (rest.map Prod.fst) hle
      have hle2 : chainLe (t :: rest.map Prod.fst) = true :=
        chainLe_tail lastQ _ hle
      rw [List.foldl_cons]
      cases hq : qualifies e with
      | true =>
          have hqt : qualTimes ((t, e) :: rest) = t :: qualTimes rest := by
            simp [qualTimes, qualEvents, hq]
          have hqp : qualPaths ((t, e) :: rest)
              = eventPath e :: qualPaths rest := by
            simp [qualPaths, qualEvents, hq]
          rw [hqt] at hgap
          have hgap1 : t ≤ lastQ + D := chainGap_head D lastQ t _ hgap
          have hgap2 : chainGap D (t :: qualTimes rest) = true :=
            chainGap_tail D lastQ _ hgap
          have hstep : stepWatcher D ⟨pending, some (lastQ + D), fired⟩ (t, e)
              = ⟨addToSet pending (eventPath e), some (t + D), fired⟩ := by
            show handleEvent D t
              (elapse t ⟨pending, some (lastQ + D), fired⟩) e = _
            have helapse : elapse t ⟨pending, some (lastQ + D), fired⟩
                = ⟨pending, some (lastQ + D), fired⟩ := by
              show (if lastQ + D < t then _ else _) = _
              rw [if_neg (by omega)]
            rw [helapse, handleEvent_qual D t _ e hq]
          rw [hstep]
          rw [ih t (addToSet pending (eventPath e)) fired
            (addToSet_ne_nil pending (eventPath e)) hle2 hgap2]
          rw [hqp, List.foldl_cons]
      | false =>
          have hqt : qualTimes ((t, e) :: rest) = qualTimes rest := by
            simp [qualTimes, qualEvents, hq]
          have hqp : qualPaths ((t, e) :: rest) = qualPaths rest := by
            simp [qualPaths, qualEvents, hq]
          rw [hqt] at hgap
          rw [hqp]
          by_cases hfire : lastQ + D < t
          · have hstep : stepWatcher D ⟨pending, some (lastQ + D), fired⟩ (t, e)
                = ⟨[], none, fired ++ [pending]⟩ := by
              show handleEvent D t
                (elapse t ⟨pending, some (lastQ + D), fired⟩) e = _
              have helapse : elapse t ⟨pending, some (lastQ + D), fired⟩
                  = fireTimer ⟨pending, some (lastQ + D), fired⟩ := by
                show (if lastQ + D < t then _ else _) = _
                rw [if_pos hfire]
              rw [helapse, fireTimer_of_ne_nil pending _ fired hpend]
              exact handleEvent_not_qual D t _ e hq
            have hnoq : ∀ te2 ∈ rest, qualifies te2.2 = false := by
              intro te2 hmem
              cases hq2 : qualifies te2.2 with
              | false => rfl
              | true =>
                  exfalso
                  have hmemq : te2 ∈ qualEvents rest :=
                    List.mem_filter.mpr ⟨hmem, hq2⟩
                  have ht2 : te2.1 ∈ qualTimes rest :=
                    List.mem_map_of_mem Prod.fst hmemq
                  cases hqt2 : qualTimes rest with
                  | nil => rw [hqt2] at ht2; cases ht2
                  | cons t0 ts =>
                      rw [hqt2] at hgap ht2
                      have h0 : t0 ≤ lastQ + D := chainGap_head D lastQ t0 ts hgap
                      have hall : ∀ x ∈ qualTimes rest, t ≤ x := by
                        intro x hx
                        obtain ⟨te3, hte3, rfl⟩ := List.mem_map.mp hx
                        have hte3r : te3 ∈ rest := (List.mem_filter.mp hte3).1
                        exact chainLe_all t (rest.map Prod.fst) hle2 te3.1
                          (List.mem_map_of_mem Prod.fst hte3r)
                      have ht0 : t ≤ t0 := hall t0 (by
                        rw [hqt2]
                        exact List.mem_cons_self t0 ts)
                      omega
            have hqp0 : qualPaths rest = [] := by
              unfold qualPaths qualEvents
              rw [List.filter_eq_nil_iff.mpr (fun te2 hm => by
                rw [hnoq te2 hm]; exact Bool.false_ne_true)]
              rfl
            rw [hstep, foldl_noQual D rest [] (fired ++ [pending]) hnoq]
            rw [hqp0]
            rfl
          · have hstep : stepWatcher D ⟨pending, some (lastQ + D), fired⟩ (t, e)
                = ⟨pending, some (lastQ + D), fired⟩ := by
              show handleEvent D t
                (elapse t ⟨pending, some (lastQ + D), fired⟩) e = _
              have helapse : elapse t ⟨pending, some (lastQ + D), fired⟩
                  = ⟨pending, some (lastQ + D), fired⟩ := by
                show (if lastQ + D < t then _ else _) = _
                rw [if_neg hfire]
              rw [helapse]
              exact handleEvent_not_qual D t _ e hq
            rw [hstep]
            exact ih lastQ pending fired hpend
              (chainLe_weaken lastQ t _ hle1 hle2) hgap

/-- Over a whole trace with nondecreasing timestamps, at least one
qualifying event, and every pair of consecutive qualifying times at most
`D` apart, the watcher fires exactly one batch: the in-order
deduplicating accumulation of all qualifying paths. -/
theorem runWatcher_single_batch (D : Nat) :
    ∀ evs : List (Nat × FsEvent),
      chainLe (evs.map Prod.fst) = true →
      chainGap D (qualTimes evs) = true →
      qualEvents evs ≠ [] →
      runWatcher D evs = ⟨[], none, [(qualPaths evs).foldl addToSet []]⟩ := by
  intro evs
  induction evs with
  | nil => intro _ _ h; exact absurd rfl h
  | cons te rest ih =>
      obtain ⟨t, e⟩ := te
      intro hle hgap hne
      have hle2 : chainLe (t :: rest.map Prod.fst) = true := hle
      unfold runWatcher
      rw [List.foldl_cons]
      cases hq : qualifies e with
      | true =>
          have hqt : qualTimes ((t, e) :: rest) = t :: qualTimes rest := by
            simp [qualTimes, qualEvents, hq]
          have hqp : qualPaths ((t, e) :: rest)
              = eventPath e :: qualPaths rest := by
            simp [qualPaths, qualEvents, hq]
          rw [hqt] at hgap
          have hstep : stepWatcher D initWatcher (t, e)
              = ⟨addToSet [] (eventPath e), some (t + D), []⟩ := by
            show handleEvent D t (elapse t initWatcher) e = _
            have helapse : elapse t initWatcher = initWatcher := rfl
            rw [helapse, handleEvent_qual D t initWatcher e hq]
            rfl
          rw [hstep]
          rw [foldl_armed D rest t (addToSet [] (eventPath e)) []
            (addToSet_ne_nil [] (eventPath e)) hle2 hgap]
          rw [hqp, List.foldl_cons]
          rfl
      | false =>
          have hqt : qualTimes ((t, e) :: rest) = qualTimes rest := by
            simp [qualTimes, qualEvents, hq]
          have hqp : qualPaths ((t, e) :: rest) = qualPaths rest := by
            simp [qualPaths, qualEvents, hq]
          have hne2 : qualEvents rest ≠ [] := by
            intro h0
            apply hne
            unfold qualEvents
            rw [List.filter_cons]
            rw [hq]
            simpa [qualEvents] using h0
          have hstep : stepWatcher D initWatcher (t, e) = initWatcher := by
            show handleEvent D t (elapse t initWatcher) e = _
            have helapse : elapse t initWatcher = initWatcher := rfl
            rw [helapse]
            exact handleEvent_not_qual D t initWatcher e hq
          rw [hstep]
          rw [hqt] at hgap
          rw [hqp]
          exact ih (chainLe_tail t _ hle2) hgap hne2

/-- Every path in the pending set and in every fired batch lies in `P`. -/
def coveredBy (P : List String) (s : WatcherState) : Prop :=
  (∀ p ∈ s.pending, p ∈ P) ∧ (∀ B ∈ s.fired, ∀ p ∈ B, p ∈ P)

theorem fireTimer_covered {P : List String} {s : WatcherState}
    (h : coveredBy P s) : coveredBy P (fireTimer s) := by
  unfold fireTimer
  by_cases hie : s.pending.isEmpty
  · rw [if_pos hie]
    exact ⟨h.1, h.2⟩
  · rw [if_neg hie]
    refine ⟨fun p hp => absurd hp (List.not_mem_nil p), ?_⟩
    intro B hB
    rcases List.mem_append.mp hB with hB1 | hB2
    · exact h.2 B hB1
    · rw [List.mem_singleton] at hB2
      subst hB2
      exact h.1

theorem elapse_covered {P : List String} (t : Nat) {s : WatcherState}
    (h : coveredBy P s) : coveredBy P (elapse t s) := by
  obtain ⟨pend, dl, fr⟩ := s
  cases dl with
  | none => exact h
  | some d =>
      show coveredBy P (if d < t then fireTimer ⟨pend, some d, fr⟩ else _)
      by_cases hd : d < t
      · rw [if_pos hd]
        exact fireTimer_covered h
      · rw [if_neg hd]
        exact h

theorem handleEvent_covered {P : List String} (D t : Nat) {s : WatcherState}
    (e : FsEvent) (hq : qualifies e = true → eventPath e ∈ P)
    (h : coveredBy P s) : coveredBy P (handleEvent D t s e) := by
  cases hqe : qualifies e with
  | false =>
      rw [handleEvent_not_qual D t s e hqe]
      exact h
  | true =>
      rw [handleEvent_qual D t s e hqe]
      refine ⟨?_, h.2⟩
      intro p hp
      rcases (mem_addToSet s.pending (eventPath e) p).mp hp with hp1 | rfl
      · exact h.1 p hp1
      · exact hq hqe

theorem foldl_covered {P : List String} (D : Nat) :
    ∀ (evs : List (Nat × FsEvent)) (s : WatcherState), coveredBy P s →
      (∀ te ∈ evs, qualifies te.2 = true → eventPath te.2 ∈ P) →
      coveredBy P (evs.foldl (stepWatcher D) s) := by
  intro evs
  induction evs with
  | nil => intro s h _; exact h
  | cons te rest ih =>
      intro s h hev
      rw [List.foldl_cons]
      refine ih _ ?_ (fun te2 h2 => hev te2 (List.mem_cons_of_mem _ h2))
      exact handleEvent_covered D te.1 te.2
        (hev te (List.mem_cons_self _ _)) (elapse_covered te.1 h)

theorem fireAtEnd_covered {P : List String} {s : WatcherState}
    (h : coveredBy P s) : coveredBy P (fireAtEnd s) := by
  obtain ⟨pend, dl, fr⟩ := s
  cases dl with
  | none => exact h
  | some d => exact fireTimer_covered h

theorem batches_in_qualPaths (D : Nat) (evs : List (Nat × FsEvent)) :
    ∀ B ∈ (runWatcher D evs).fired, ∀ p ∈ B, p ∈ qualPaths evs := by
  have hinit : coveredBy (qualPaths evs) initWatcher :=
    ⟨fun p hp => absurd hp (List.not_mem_nil p),
     fun B hB => absurd hB (List.not_mem_nil B)⟩
  have hev : ∀ te ∈ evs, qualifies te.2 = true → eventPath te.2 ∈ qualPaths evs := by
    intro te hmem hq
    exact List.mem_map_of_mem _ (List.mem_filter.mpr ⟨hmem, hq⟩)
  exact (fireAtEnd_covered (foldl_covered D evs initWatcher hinit hev)).2

/-! ## Claims C5 and C8 -/

/-- C5: for every trace with nondecreasing timestamps in which no two
consecutive qualifying events are more than the quiet period `D` apart
and at least one qualifying event occurs, exactly one batch fires, and it
contains exactly the deduplicated union of the qualifying paths; a
non-qualifying event (unsupported extension, directory, not-ready file)
leaves the handler state — pending set and timer — untouched, and no path
ever appears in a fired batch of any trace without a qualifying event for
it. -/
theorem claim5_debounce :
    (∀ (D : Nat) (evs : List (Nat × FsEvent)),
        chainLe (evs.map Prod.fst) = true →
        chainGap D (qualTimes evs) = true →
        qualEvents evs ≠ [] →
        ∃ B, (runWatcher D evs).fired = [B] ∧
          (∀ p, p ∈ B ↔ p ∈ qualPaths evs) ∧ B.Nodup) ∧
    (∀ (D t : Nat) (s : WatcherState) (e : FsEvent),
        qualifies e = false → handleEvent D t s e = s) ∧
    (∀ (D : Nat) (evs : List (Nat × FsEvent)) (B : List String) (p : String),
        B ∈ (runWatcher D evs).fired → p ∈ B → p ∈ qualPaths evs) := by
  refine ⟨?_, handleEvent_not_qual, ?_⟩
  · intro D evs hle hgap hne
    refine ⟨(qualPaths evs).foldl addToSet [], ?_, ?_, ?_⟩
    · rw [runWatcher_single_batch D evs hle hgap hne]
    · intro p
      rw [mem_foldl_addToSet]
      simp
    · exact nodup_foldl_addToSet _ [] List.nodup_nil
  · intro D evs B p hB hp
    exact batches_in_qualPaths D evs B hB p hp

/-- A concrete burst: two supported creations and a supported move within
the quiet period, one unsupported file, one duplicate path. -/
def exTrace : List (Nat × FsEvent) :=
  [(0, FsEvent.created "inbox/a.jpg" false 100 true),
   (30, FsEvent.created "inbox/notes.txt" false 50 true),
   (60, FsEvent.moved "inbox/b.png" false),
   (90, FsEvent.created "inbox/a.jpg" false 100 true)]

theorem claim5_witness :
    ∃ B, (runWatcher 120 exTrace).fired = [B] ∧
      (∀ p, p ∈ B ↔ p ∈ qualPaths exTrace) ∧ B.Nodup :=
  claim5_debounce.1 120 exTrace (by decide) (by decide) (by decide)

/-- C8 counterexample: a zero-length created file is dropped by
`on_created`, but the same zero-length file moved into the tree is
accepted by `on_moved` (which performs no size/readability check), so a
moved file is not "treated identically to a created file": the two
events produce different handler states. -/
theorem claim8_counterexample :
    handleEvent 120 0 initWatcher (FsEvent.created "inbox/a.jpg" false 0 true)
      = initWatcher ∧
    handleEvent 120 0 initWatcher (FsEvent.moved "inbox/a.jpg" false)
      ≠ initWatcher := by
  refine ⟨?_, ?_⟩ <;> decide

/-- C8 (amended): a created file that is zero-length or not readable is
dropped — the pending set and the timer are untouched — while a file
moved into the watched tree behaves exactly like a created file that
passes the readiness check: the readiness check simply does not apply to
moves. -/
theorem claim8_amended :
    (∀ (D t : Nat) (s : WatcherState) (p : String) (sz : Nat) (r : Bool),
        sz = 0 ∨ r = false →
        handleEvent D t s (FsEvent.created p false sz r) = s) ∧
    (∀ (D t : Nat) (s : WatcherState) (p : String) (sz : Nat) (r : Bool),
        0 < sz → r = true →
        handleEvent D t s (FsEvent.moved p false)
          = handleEvent D t s (FsEvent.created p false sz r)) := by
  constructor
  · intro D t s p sz r h
    have hq : qualifies (FsEvent.created p false sz r) = false := by
      show (!false && isSupportedFile p && r && decide (0 < sz)) = false
      rcases h with rfl | rfl
      · simp
      · simp
    exact handleEvent_not_qual D t s _ hq
  · intro D t s p sz r hsz hr
    subst hr
    have hqq : qualifies (FsEvent.moved p false)
        = qualifies (FsEvent.created p false sz true) := by
      show (!false && isSupportedFile p)
          = (!false && isSupportedFile p && true && decide (0 < sz))
      rw [decide_eq_true hsz]
      simp
    unfold handleEvent
    rw [hqq]
    rfl

theorem claim8_witness :
    handleEvent 120 0 initWatcher (FsEvent.created "inbox/a.jpg" false 0 true)
      = initWatcher ∧
    handleEvent 120 0 initWatcher (FsEvent.moved "inbox/a.jpg" false)
      = handleEvent 120 0 initWatcher
          (FsEvent.created "inbox/a.jpg" false 4096 true) :=
  ⟨claim8_amended.1 120 0 initWatcher "inbox/a.jpg" 0 true (Or.inl rfl),
   claim8_amended.2 120 0 initWatcher "inbox/a.jpg" 4096 true (by omega) rfl⟩
